import Mathlib

/-!
Verification development for the hgvstools variant-resolution pipeline
(files variant.py and hgvs.py of the repository).

The Python code is shallowly embedded: strings are modelled as lists of
characters, the regular expressions of the source are modelled by
executable Lean functions that reproduce the (anchored, greedy,
backtracking) semantics of the concrete patterns used by the code, the
external annotation service is modelled by an oracle of responses
together with a counter of network requests, and Python floats
(polyphen scores) are modelled by rationals, on which the code only
performs order comparisons.  Character classes follow the ASCII
semantics of the patterns in the source.
-/

namespace Hgvstools

/-- ASCII digit class, the class 0-9 of the Python patterns. -/
def isDigitC (c : Char) : Bool := decide (48 ≤ c.toNat ∧ c.toNat ≤ 57)

/-- ASCII letter class a-zA-Z of the Python patterns. -/
def isAlphaC (c : Char) : Bool :=
  decide ((65 ≤ c.toNat ∧ c.toNat ≤ 90) ∨ (97 ≤ c.toNat ∧ c.toNat ≤ 122))

/-- Alphanumeric class, the ASCII semantics of str.isalnum. -/
def isAlnumC (c : Char) : Bool := isAlphaC c || isDigitC c

/-- ASCII whitespace, the complement of the regex class for non-space. -/
def isSpaceC (c : Char) : Bool :=
  decide (c.toNat = 32 ∨ c.toNat = 9 ∨ c.toNat = 10 ∨ c.toNat = 13 ∨ c.toNat = 11 ∨ c.toNat = 12)

/-- Word-character class of the regex, ASCII letters, digits and underscore. -/
def isWordC (c : Char) : Bool := isAlnumC c || c == '_'

/-- Nucleotide letter, the class of the base ref and alt pattern [ACTG]+. -/
def isACTG (c : Char) : Bool := c == 'A' || c == 'C' || c == 'T' || c == 'G'

/-- Lower-case ASCII letter, the set string.ascii_lowercase. -/
def isLowerC (c : Char) : Bool := decide (97 ≤ c.toNat ∧ c.toNat ≤ 122)

/-- Upper-case a character, used by the three-letter code lookup. -/
def upperC (c : Char) : Char :=
  if isLowerC c then Char.ofNat (c.toNat - 32) else c

/-- Twenty standard one-letter amino-acid codes, the string aa1 of
Bio.PDB.Polypeptide in the fixed alphabetical order. -/
def aa1L : List Char :=
  ['A', 'C', 'D', 'E', 'F', 'G', 'H', 'I', 'K', 'L',
   'M', 'N', 'P', 'Q', 'R', 'S', 'T', 'V', 'W', 'Y']

/-- Three-letter to one-letter amino-acid translation of Bio.SeqUtils.seq1
restricted to the twenty codes of Bio.PDB.Polypeptide.aa3 (upper-cased). -/
def threeToOne : List Char → Option Char
  | ['A', 'L', 'A'] => some 'A'
  | ['C', 'Y', 'S'] => some 'C'
  | ['A', 'S', 'P'] => some 'D'
  | ['G', 'L', 'U'] => some 'E'
  | ['P', 'H', 'E'] => some 'F'
  | ['G', 'L', 'Y'] => some 'G'
  | ['H', 'I', 'S'] => some 'H'
  | ['I', 'L', 'E'] => some 'I'
  | ['L', 'Y', 'S'] => some 'K'
  | ['L', 'E', 'U'] => some 'L'
  | ['M', 'E', 'T'] => some 'M'
  | ['A', 'S', 'N'] => some 'N'
  | ['P', 'R', 'O'] => some 'P'
  | ['G', 'L', 'N'] => some 'Q'
  | ['A', 'R', 'G'] => some 'R'
  | ['S', 'E', 'R'] => some 'S'
  | ['T', 'H', 'R'] => some 'T'
  | ['V', 'A', 'L'] => some 'V'
  | ['T', 'R', 'P'] => some 'W'
  | ['T', 'Y', 'R'] => some 'Y'
  | _ => none

/-- Cut a character list into chunks of three; fails unless the length is a
multiple of three. -/
def aaChunks : List Char → Option (List (List Char))
  | [] => some []
  | a :: b :: c :: rest => (aaChunks rest).map (fun cs => [a, b, c] :: cs)
  | _ => none

/-- Test of the three-letter regex of class P: one or more three-letter
amino-acid codes, case-insensitive, anchored at both ends.  Every
alternative of the pattern is exactly three characters long, so the
anchored repetition matches exactly the strings that split into valid
three-letter chunks. -/
def matches3 (s : List Char) : Bool :=
  !s.isEmpty &&
    (match aaChunks s with
     | some cs => cs.all (fun ch => (threeToOne (ch.map upperC)).isSome)
     | none => false)

/-- Model of Bio.SeqUtils.seq1 on strings of three-letter codes: each chunk
is translated to its one-letter code, unknown chunks give X.  The code only
applies it to strings accepted by matches3, whose length is a multiple of
three; other inputs are returned unchanged (unreachable in the pipeline). -/
def seq1 (s : List Char) : List Char :=
  match aaChunks s with
  | some cs => cs.map (fun ch => (threeToOne (ch.map upperC)).getD ('X'))
  | none => s

/-- Edit types supported by the descriptor model of variant.py; every other
edit kind is rejected before a descriptor is built, so the embedding only
carries these two. -/
inductive EditType
  | substitution
  | insertion
deriving DecidableEq, Repr

/-- Error taxonomy of the pipeline, named after the specification. -/
inductive VErr
  | malformedInput
  | validation
  | unsupportedFeature
  | noMatchingTranscript
  | ambiguousMapping
  | notImplemented
deriving DecidableEq, Repr

/-- Full match of the base pattern [ACTG]+ for ref and alt sequences. -/
def nucOk (s : List Char) : Bool := !s.isEmpty && s.all isACTG

/-- Full match of the base position pattern [digits + -]+ used for the
start and stop fields of coding and genomic descriptors. -/
def basePosOk (s : List Char) : Bool :=
  !s.isEmpty && s.all (fun c => isDigitC c || c == '+' || c == '-')

/-- Python str.isalnum: non-empty and every character alphanumeric. -/
def isalnum (s : List Char) : Bool := !s.isEmpty && s.all isAlnumC

/-- Full match of the class P ref and alt pattern: one or more one-letter
amino-acid codes, or the literal dash of an insertion. -/
def pSeqOk (s : List Char) : Bool :=
  (!s.isEmpty && s.all (fun c => c ∈ aa1L)) || s == ['-']

/-- Full match of the class P start pattern: one to three ASCII letters
followed by one or more digits. -/
def pStartOk (s : List Char) : Bool :=
  let letters := s.takeWhile isAlphaC
  let rest := s.dropWhile isAlphaC
  !letters.isEmpty && decide (letters.length ≤ 3) && !rest.isEmpty && rest.all isDigitC

/-- Full match of the class P stop pattern: one to three ASCII letters
followed by zero or more digits. -/
def pStopOk (s : List Char) : Bool :=
  let letters := s.takeWhile isAlphaC
  let rest := s.dropWhile isAlphaC
  !letters.isEmpty && decide (letters.length ≤ 3) && rest.all isDigitC

/-- Protein-level descriptor, class P of variant.py. -/
structure PDescr where
  refSeqId : List Char
  start : List Char
  stop : List Char
  ref : List Char
  alt : List Char
  editType : EditType
  predicted : Bool
deriving DecidableEq, Repr

/-- Constructor of class P of variant.py: three-letter ref and alt are
normalized to one-letter codes when both fully match the three-letter
pattern, then the inherited validation runs field checks in source order
(the edit-type membership check holds by construction of EditType). -/
def Pmake (refSeqId start stop ref alt : List Char) (editType : EditType) :
    Except VErr PDescr :=
  let conv := matches3 ref && matches3 alt
  let ref2 := if conv then seq1 ref else ref
  let alt2 := if conv then seq1 alt else alt
  if !isalnum refSeqId then .error .validation
  else if !pSeqOk ref2 then .error .validation
  else if !pStartOk start then .error .validation
  else if !pStopOk stop then .error .validation
  else if !pSeqOk alt2 then .error .validation
  else .ok ⟨refSeqId, start, stop, ref2, alt2, editType, false⟩

/-- Canonical nomenclature string of a protein descriptor (property hgvs of
class P in variant.py): the substitution form interpolates the stored start
token, which already carries the reference residue. -/
def PDescr.hgvs (p : PDescr) : List Char :=
  match p.editType with
  | .substitution => p.refSeqId ++ (":p.").toList ++ p.start ++ p.alt
  | .insertion =>
      p.refSeqId ++ (":p.").toList ++ p.start ++ ['_'] ++ p.stop ++ ("ins").toList ++ p.alt

/-- Numeric protein start position: non-digits stripped from the start token
(property start_pos of class P). -/
def PDescr.startPos (p : PDescr) : List Char := p.start.filter isDigitC

/-- Numeric protein stop position (property stop_pos of class P). -/
def PDescr.stopPos (p : PDescr) : List Char := p.stop.filter isDigitC

/-- Coding-level descriptor, class C of variant.py. -/
structure CDescr where
  refSeqId : List Char
  start : List Char
  stop : List Char
  strand : List Char
  ref : List Char
  alt : List Char
  editType : EditType
deriving DecidableEq, Repr

/-- Constructor of class C of variant.py: plus and minus strand aliases are
normalized, the inherited field validation runs, then the strand value is
checked. -/
def Cmake (refSeqId start stop strand ref alt : List Char) (editType : EditType) :
    Except VErr CDescr :=
  let strand2 :=
    if strand == ['+'] then ['1']
    else if strand == ['-'] then ['-', '1']
    else strand
  if !isalnum refSeqId then .error .validation
  else if !nucOk ref then .error .validation
  else if !basePosOk start then .error .validation
  else if !basePosOk stop then .error .validation
  else if !nucOk alt then .error .validation
  else if !(strand2 == ['1'] || strand2 == ['-', '1']) then .error .validation
  else .ok ⟨refSeqId, start, stop, strand2, ref, alt, editType⟩

/-- Genomic-level descriptor, class G of variant.py; the chromosome field
plays the role of the reference id and G carries no strand. -/
structure GDescr where
  chromosome : List Char
  start : List Char
  stop : List Char
  ref : List Char
  alt : List Char
  editType : EditType
deriving DecidableEq, Repr

/-- Chromosome character class [MTXY and digits] of G._validate; the
pattern is compiled without the ignore-case flag, so only these exact
characters match. -/
def chromClassC (c : Char) : Bool :=
  c == 'M' || c == 'T' || c == 'X' || c == 'Y' || isDigitC c

/-- Remainder of a chromosome token after the optional literal upper-case
CHR of the pattern; tokens without that literal prefix are unchanged. -/
def chromRest (s : List Char) : List Char :=
  if s.take 3 = ['C', 'H', 'R'] then s.drop 3 else s

/-- Anchored match of the chromosome pattern: an optional literal
upper-case CHR, then one or more chromosome-class characters, captured as
group one.  The greedy engine first tries to consume the CHR literal and
falls back to the empty alternative when the remainder yields no class
character; when the literal is absent both attempts read from the start
of the token. -/
def chromMatch (s : List Char) : Option (List Char) :=
  let rest := chromRest s
  if !(rest.takeWhile chromClassC).isEmpty then some (rest.takeWhile chromClassC)
  else if !(s.takeWhile chromClassC).isEmpty then some (s.takeWhile chromClassC)
  else none

/-- Constructor of class G of variant.py: the inherited base validation
runs on all fields, then the chromosome text is replaced by the first
capture group of the chromosome pattern; a failed chromosome match is a
validation error. -/
def Gmake (chromosome start stop ref alt : List Char) (editType : EditType) :
    Except VErr GDescr :=
  if !isalnum chromosome then .error .validation
  else if !nucOk ref then .error .validation
  else if !basePosOk start then .error .validation
  else if !basePosOk stop then .error .validation
  else if !nucOk alt then .error .validation
  else
    match chromMatch chromosome with
    | some chrom => .ok ⟨chrom, start, stop, ref, alt, editType⟩
    | none => .error .validation

/-- Complement of a nucleotide, the restriction of Bio reverse_complement
to the validated alphabet A, C, T, G (other characters cannot reach this
function because coding descriptors validate ref and alt first). -/
def complementC (c : Char) : Char :=
  if c == 'A' then 'T'
  else if c == 'T' then 'A'
  else if c == 'C' then 'G'
  else if c == 'G' then 'C'
  else c

/-- Reverse complement: complement each base and reverse the order. -/
def reverseComplement (s : List Char) : List Char := (s.map complementC).reverse

/-- Candidate split point for the primary pattern of Variant._parse_hgvs:
the id group is one or more non-space characters, then a literal colon,
one of the letters p, c, g, and a literal dot. -/
def primarySplitOk (s : List Char) (i : Nat) : Bool :=
  !(s.take i).isEmpty && (s.take i).all (fun c => !isSpaceC c) &&
    s[i]? == some ':' &&
    (s[i + 1]? == some 'p' || s[i + 1]? == some 'c' || s[i + 1]? == some 'g') &&
    s[i + 2]? == some '.'

/-- Anchored match of the primary pattern: the greedy non-space id group
tries the longest split first, so the match uses the largest valid split
point; the edits group is everything after the dot up to the end of line
(the dot of the pattern does not cross a newline). -/
def primaryMatch (s : List Char) : Option (List Char × Char × List Char) :=
  match (List.range s.length).reverse.find? (fun i => primarySplitOk s i) with
  | none => none
  | some i =>
    match s[i + 1]? with
    | some pfxc => some (s.take i, pfxc, (s.drop (i + 3)).takeWhile (fun c => c != '\n'))
    | none => none

/-- Substitution alt class of the protein substitution pattern: ASCII
letters plus the synonymous and stop symbols. -/
def isSubAltC (c : Char) : Bool := isAlphaC c || c == '*' || c == '='

/-- Full match of the protein substitution pattern: one to three letters,
one or more digits, then one to three characters of the alt class.  The
greedy groups are forced: the letter run is bounded by the following
digit, the digit run by the following alt character, so the groups are the
maximal runs and the match succeeds exactly when the three runs exhaust
the string within the length bounds. -/
def pSubFullmatch (s : List Char) : Option (List Char × List Char × List Char) :=
  let res1 := s.takeWhile isAlphaC
  let rest1 := s.dropWhile isAlphaC
  let pos := rest1.takeWhile isDigitC
  let res2 := rest1.dropWhile isDigitC
  if !res1.isEmpty && decide (res1.length ≤ 3) && !pos.isEmpty &&
      !res2.isEmpty && decide (res2.length ≤ 3) && res2.all isSubAltC
  then some (res1, pos, res2) else none

/-- Full match of the protein insertion pattern: two residue tokens of one
to three letters plus digits separated by an underscore, the literal ins,
then one or more word characters.  As for the substitution pattern, each
greedy run is forced by the character that must follow it. -/
def pInsFullmatch (s : List Char) : Option (List Char × List Char × List Char) :=
  let r1a := s.takeWhile isAlphaC
  let s1 := s.dropWhile isAlphaC
  let r1d := s1.takeWhile isDigitC
  let s2 := s1.dropWhile isDigitC
  match s2 with
  | '_' :: s3 =>
    let r2a := s3.takeWhile isAlphaC
    let s4 := s3.dropWhile isAlphaC
    let r2d := s4.takeWhile isDigitC
    let s5 := s4.dropWhile isDigitC
    match s5 with
    | 'i' :: 'n' :: 's' :: insSeq =>
      if !r1a.isEmpty && decide (r1a.length ≤ 3) && !r1d.isEmpty &&
          !r2a.isEmpty && decide (r2a.length ≤ 3) && !r2d.isEmpty &&
          !insSeq.isEmpty && insSeq.all isWordC
      then some (r1a ++ r1d, r2a ++ r2d, insSeq) else none
    | _ => none
  | _ => none

/-- Result of the grammar parser: the validated protein descriptor, the
classified edit type, and the raw edit body. -/
structure Parsed where
  p : PDescr
  editType : EditType
  edit : List Char
deriving DecidableEq, Repr

/-- Variant._parse_hgvs of variant.py: match the primary pattern, reject
allele brackets, then try the substitution and insertion sub-grammars for
a protein edit; other coordinate prefixes are unsupported as input. -/
def parseHgvs (s : List Char) : Except VErr Parsed :=
  match primaryMatch s with
  | none => .error .malformedInput
  | some (idStr, pfxc, edits) =>
    if '[' ∈ edits then .error .malformedInput
    else if pfxc == 'p' then
      match pSubFullmatch edits with
      | some (res1, pos, res2) =>
        (Pmake idStr (res1 ++ pos) (res1 ++ pos) res1 res2 .substitution).map
          (fun pd => ⟨pd, .substitution, edits⟩)
      | none =>
        match pInsFullmatch edits with
        | some (r1, r2, insSeq) =>
          (Pmake idStr r1 r2 ['-'] insSeq .insertion).map
            (fun pd => ⟨pd, .insertion, edits⟩)
        | none => .error .malformedInput
    else .error .unsupportedFeature

/-- Lexicographic string comparison by code points, the ordering Python
uses when sorting transcript ids: a string is less-or-equal when it is a
whole prefix of the other or its first differing code point is smaller. -/
def lexLeB : List Char → List Char → Bool
  | [], _ => true
  | _ :: _, [] => false
  | a :: as, b :: bs =>
    if a.toNat = b.toNat then lexLeB as bs else decide (a.toNat < b.toNat)

/-- Transcript candidate as returned by the annotation service.  Fields
that the selection loop reads through a KeyError guard are optional; the
protein start and end carry the string image of the JSON value, as
produced by the str conversion at the comparison site; the polyphen score
is a rational standing for the float, on which the code only compares. -/
structure Transcript where
  transcriptId : List Char
  biotype : Option (List Char)
  proteinStart : Option (List Char)
  proteinEnd : Option (List Char)
  polyphenScore : Option Rat
  cdsStart : List Char
  cdsEnd : List Char
  strand : List Char
  codons : Option (List Char)
deriving DecidableEq

/-- Polyphen score of a candidate; the selection only reads it on
candidates whose score is present. -/
def scoreOf (t : Transcript) : Rat := t.polyphenScore.getD 0

/-- Position-and-biotype filter of the selection loop: the candidate is
protein coding and its protein start and end equal the descriptor's
numeric positions; a missing key makes the loop skip the candidate. -/
def posMatches (sp ep : List Char) (t : Transcript) : Bool :=
  t.biotype == some (("protein_coding").toList) &&
    t.proteinStart == some sp && t.proteinEnd == some ep

/-- Indices paired with candidates that reach backup.append in the loop. -/
def backupList (ts : List Transcript) (sp ep : List Char) : List (Nat × Transcript) :=
  ts.enum.filter (fun it => posMatches sp ep it.2)

/-- Indices paired with candidates that reach result.append in the loop:
position matches and a polyphen score is present. -/
def scoredList (ts : List Transcript) (sp ep : List Char) : List (Nat × Transcript) :=
  (backupList ts sp ep).filter (fun it => it.2.polyphenScore.isSome)

/-- Sort key of the first sorted call: transcript id descending.  Python
sorted is stable, as is List.insertionSort, and reverse sorting keeps
equal keys in their original order. -/
def idDescRel (a b : Nat × Transcript) : Prop :=
  lexLeB b.2.transcriptId a.2.transcriptId = true

/-- Sort key of the second sorted call: polyphen score ascending. -/
def scoreAscRel (a b : Nat × Transcript) : Prop :=
  scoreOf a.2 ≤ scoreOf b.2

theorem lexLeB_total : ∀ a b : List Char, lexLeB a b = true ∨ lexLeB b a = true := by
  intro a
  induction a with
  | nil => intro b; exact Or.inl rfl
  | cons x as ih =>
    intro b
    cases b with
    | nil => exact Or.inr rfl
    | cons y bs =>
      by_cases hxy : x.toNat = y.toNat
      · have hyx : y.toNat = x.toNat := hxy.symm
        rcases ih bs with h | h
        · exact Or.inl (by simp [lexLeB, hxy, h])
        · exact Or.inr (by simp [lexLeB, hyx, h])
      · have hne : ¬ y.toNat = x.toNat := fun e => hxy e.symm
        rcases Nat.lt_or_ge x.toNat y.toNat with h | h
        · exact Or.inl (by simp [lexLeB, hxy, h])
        · have hyx : y.toNat < x.toNat := Nat.lt_of_le_of_ne h hne
          exact Or.inr (by simp [lexLeB, hne, hyx])

theorem lexLeB_trans : ∀ a b c : List Char,
    lexLeB a b = true → lexLeB b c = true → lexLeB a c = true := by
  intro a
  induction a with
  | nil => intro b c _ _; rfl
  | cons x as ih =>
    intro b c h1 h2
    cases b with
    | nil => simp [lexLeB] at h1
    | cons y bs =>
      cases c with
      | nil => simp [lexLeB] at h2
      | cons z cs =>
        simp only [lexLeB] at h1 h2 ⊢
        by_cases hxy : x.toNat = y.toNat <;> by_cases hyz : y.toNat = z.toNat
        · rw [if_pos hxy] at h1
          rw [if_pos hyz] at h2
          rw [if_pos (hxy.trans hyz)]
          exact ih bs cs h1 h2
        · rw [if_neg hyz] at h2
          have hlt2 : y.toNat < z.toNat := by simpa using h2
          have hne : ¬ x.toNat = z.toNat := by omega
          rw [if_neg hne]
          simp only [decide_eq_true_eq]
          omega
        · rw [if_neg hxy] at h1
          have hlt1 : x.toNat < y.toNat := by simpa using h1
          have hne : ¬ x.toNat = z.toNat := by omega
          rw [if_neg hne]
          simp only [decide_eq_true_eq]
          omega
        · rw [if_neg hxy] at h1
          rw [if_neg hyz] at h2
          have hlt1 : x.toNat < y.toNat := by simpa using h1
          have hlt2 : y.toNat < z.toNat := by simpa using h2
          have hne : ¬ x.toNat = z.toNat := by omega
          rw [if_neg hne]
          simp only [decide_eq_true_eq]
          omega

instance : DecidableRel idDescRel :=
  fun a b => inferInstanceAs (Decidable (lexLeB b.2.transcriptId a.2.transcriptId = true))

instance : DecidableRel scoreAscRel :=
  fun a b => inferInstanceAs (Decidable (scoreOf a.2 ≤ scoreOf b.2))

instance : IsTotal (Nat × Transcript) idDescRel :=
  ⟨fun a b => lexLeB_total b.2.transcriptId a.2.transcriptId⟩

instance : IsTrans (Nat × Transcript) idDescRel :=
  ⟨fun _ _ _ hab hbc => lexLeB_trans _ _ _ hbc hab⟩

instance : IsTotal (Nat × Transcript) scoreAscRel :=
  ⟨fun a b => le_total (scoreOf a.2) (scoreOf b.2)⟩

instance : IsTrans (Nat × Transcript) scoreAscRel :=
  ⟨fun _ _ _ hab hbc => le_trans hab hbc⟩

/-- Selection logic of Variant._infer_best_transcript in variant.py: build
the scored and backup index lists, then with more than one scored
candidate sort by transcript id descending, stably re-sort by polyphen
score ascending and take the last element; with exactly one scored
candidate take it; otherwise fall back to the backup list sorted by id
descending, last element; with no candidate at all fail.  The anonymous
error branches after getLast? and head? are unreachable because the
guarded lists are non-empty. -/
def inferBestTranscript (ts : List Transcript) (sp ep : List Char) :
    Except VErr (Nat × Transcript) :=
  let result := scoredList ts sp ep
  let backup := backupList ts sp ep
  if 1 < result.length then
    match (List.insertionSort scoreAscRel (List.insertionSort idDescRel result)).getLast? with
    | some b => .ok b
    | none => .error .noMatchingTranscript
  else if result.length = 1 then
    match result.head? with
    | some b => .ok b
    | none => .error .noMatchingTranscript
  else if 0 < backup.length then
    match (List.insertionSort idDescRel backup).getLast? with
    | some b => .ok b
    | none => .error .noMatchingTranscript
  else .error .noMatchingTranscript

/-- Selection logic of Variant._select_best_vep_transcript in hgvs.py,
translated independently from that file: the filtering loop, the two
stable sorts and the final choice are textually the same as in
variant.py; only the surrounding network plumbing differs. -/
def selectBestVepTranscript (ts : List Transcript) (sp ep : List Char) :
    Except VErr (Nat × Transcript) :=
  let result := scoredList ts sp ep
  let backup := backupList ts sp ep
  if 1 < result.length then
    match (List.insertionSort scoreAscRel (List.insertionSort idDescRel result)).getLast? with
    | some b => .ok b
    | none => .error .noMatchingTranscript
  else if result.length = 1 then
    match result.head? with
    | some b => .ok b
    | none => .error .noMatchingTranscript
  else if 0 < backup.length then
    match (List.insertionSort idDescRel backup).getLast? with
    | some b => .ok b
    | none => .error .noMatchingTranscript
  else .error .noMatchingTranscript

/-- Genomic mapping record of the Ensembl map response; the positions
carry the decimal string image of the JSON numbers, as produced by the
str conversion in the G constructor. -/
structure Mapping where
  seqRegionName : List Char
  start : List Char
  stop : List Char
deriving DecidableEq, Repr

/-- Variant._map_cds_to_genome on an already received response: exactly
one mapping must be present, any other count is an ambiguous-mapping
error. -/
def mapCdsToGenome (mappings : List Mapping) : Except VErr Mapping :=
  match mappings with
  | [m] => .ok m
  | _ => .error .ambiguousMapping

/-- Variant._c_to_g of variant.py: request the single mapping, reverse
complement ref and alt exactly when the strand is minus one, and build the
genomic descriptor from the mapping response fields. -/
def cToG (c : CDescr) (mappings : List Mapping) : Except VErr GDescr :=
  match mapCdsToGenome mappings with
  | .error e => .error e
  | .ok t =>
    let ref := if c.strand == ['-', '1'] then reverseComplement c.ref else c.ref
    let alt := if c.strand == ['-', '1'] then reverseComplement c.alt else c.alt
    Gmake t.seqRegionName t.start t.stop ref alt c.editType

/-- Strip lower-case context characters, the translate call removing
string.ascii_lowercase from the codons field. -/
def stripLower (s : List Char) : List Char := s.filter (fun c => !isLowerC c)

/-- Split a character list on the slash separator of the codons field. -/
def splitSlash (s : List Char) : List (List Char) :=
  match s with
  | [] => [[]]
  | c :: rest =>
    let parts := splitSlash rest
    if c == '/' then [] :: parts
    else
      match parts with
      | [] => [[c]]
      | p :: ps => (c :: p) :: ps

/-- Codons field processing of _infer_best_transcript: remove lower-case
context, split on the slash, and require exactly a ref and an alt part
(the tuple unpacking in the source fails on any other shape). -/
def codonsRefAlt (codons : List Char) : Option (List Char × List Char) :=
  match splitSlash (stripLower codons) with
  | [r, a] => some (r, a)
  | _ => none

/-- Responses of the external annotation service for one resolution, in
the order the pipeline issues its requests. -/
structure Oracle where
  vep : List Transcript
  mappings : List Mapping
  translationId : List Char

/-- Variant construction pipeline of variant.py (parse, annotate, select,
map, id lookup) against an oracle of service responses.  The second
component counts the network requests issued before the pipeline returned;
parsing is in-process, each of the three service queries increments the
counter. -/
def variantResolve (o : Oracle) (s : List Char) :
    Except VErr (PDescr × CDescr × GDescr) × Nat :=
  match parseHgvs s with
  | .error e => (.error e, 0)
  | .ok pr =>
    match inferBestTranscript o.vep pr.p.startPos pr.p.stopPos with
    | .error e => (.error e, 1)
    | .ok (_, t) =>
      match t.codons with
      | none => (.error .notImplemented, 1)
      | some codons =>
        match codonsRefAlt codons with
        | none => (.error .validation, 1)
        | some (cref, calt) =>
          match Cmake t.transcriptId t.cdsStart t.cdsEnd t.strand cref calt
              pr.editType with
          | .error e => (.error e, 1)
          | .ok c =>
            match cToG c o.mappings with
            | .error e => (.error e, 2)
            | .ok g =>
              (.ok ({ pr.p with refSeqId := o.translationId }, c, g), 3)

/-! Generic facts about the stable insertion sort used to model the
stable Python sorted calls. -/

theorem lexLeB_refl : ∀ l : List Char, lexLeB l l = true := by
  intro l
  induction l with
  | nil => rfl
  | cons x as ih => simp [lexLeB, ih]

theorem orderedInsert_eq_append_of_forall_not {α : Type} (r : α → α → Prop)
    [DecidableRel r] (a : α) :
    ∀ s : List α, (∀ y ∈ s, ¬ r a y) → s.orderedInsert r a = s ++ [a] := by
  intro s
  induction s with
  | nil => intro _; rfl
  | cons b t ih =>
    intro h
    have hb : ¬ r a b := h b (List.mem_cons_self b t)
    simp only [List.orderedInsert, if_neg hb]
    rw [ih (fun y hy => h y (List.mem_cons_of_mem b hy))]
    rfl

theorem getLast?_orderedInsert_of_exists {α : Type} (r : α → α → Prop)
    [DecidableRel r] (a : α) :
    ∀ s : List α, (∃ y ∈ s, r a y) → (s.orderedInsert r a).getLast? = s.getLast? := by
  intro s
  induction s with
  | nil =>
    rintro ⟨y, hy, _⟩
    cases hy
  | cons b t ih =>
    rintro ⟨y, hy, hr⟩
    by_cases hab : r a b
    · simp only [List.orderedInsert, if_pos hab]
      exact List.getLast?_cons_cons
    · simp only [List.orderedInsert, if_neg hab]
      have hyt : y ∈ t := by
        rcases List.mem_cons.mp hy with rfl | h
        · exact absurd hr hab
        · exact h
      cases hoi : t.orderedInsert r a with
      | nil =>
        have hlen := List.orderedInsert_length r t a
        rw [hoi] at hlen
        simp at hlen
      | cons c u =>
        rw [List.getLast?_cons_cons, ← hoi, ih ⟨y, hyt, hr⟩]
        cases t with
        | nil => cases hyt
        | cons d v => exact (List.getLast?_cons_cons).symm

theorem getLast?_insertionSort_spec {α : Type} (r : α → α → Prop) [DecidableRel r]
    [IsTotal α r] [IsTrans α r] :
    ∀ l : List α, l ≠ [] → ∃ u b v, l = u ++ b :: v ∧
      (List.insertionSort r l).getLast? = some b ∧
      (∀ x ∈ v, ¬ r b x) ∧ (∀ x ∈ l, r x b) := by
  intro l
  induction l with
  | nil => intro h; exact absurd rfl h
  | cons a t ih =>
    intro _
    cases t with
    | nil =>
      refine ⟨[], a, [], rfl, rfl, ?_, ?_⟩
      · intro x hx; cases hx
      · intro x hx
        rcases List.mem_cons.mp hx with rfl | h
        · rcases total_of r x x with h | h <;> exact h
        · cases h
    | cons a2 t2 =>
      obtain ⟨u, b, v, hdec, hlast, hv, hmax⟩ := ih (by simp)
      by_cases hex : ∃ y ∈ List.insertionSort r (a2 :: t2), r a y
      · refine ⟨a :: u, b, v, ?_, ?_, hv, ?_⟩
        · rw [List.cons_append, ← hdec]
        · show (List.orderedInsert r a (List.insertionSort r (a2 :: t2))).getLast? = some b
          rw [getLast?_orderedInsert_of_exists r a _ hex]
          exact hlast
        · intro x hx
          rcases List.mem_cons.mp hx with rfl | h
          · obtain ⟨y, hy, hr⟩ := hex
            have hyt : y ∈ a2 :: t2 := (List.mem_insertionSort r).mp hy
            exact trans_of r hr (hmax y hyt)
          · exact hmax x h
      · push_neg at hex
        refine ⟨[], a, a2 :: t2, rfl, ?_, ?_, ?_⟩
        · show (List.orderedInsert r a (List.insertionSort r (a2 :: t2))).getLast? = some a
          rw [orderedInsert_eq_append_of_forall_not r a _ hex]
          exact List.getLast?_concat _
        · intro x hx
          exact hex x ((List.mem_insertionSort r).mpr hx)
        · intro x hx
          rcases List.mem_cons.mp hx with rfl | h
          · rcases total_of r x x with hh | hh <;> exact hh
          · rcases total_of r x a with hh | hh
            · exact hh
            · exact absurd hh (hex x ((List.mem_insertionSort r).mpr h))

/-! Concrete transcript candidates used by the counterexample and the
witnesses of the selection claims. -/

/-- Scored protein-coding candidate at position 248, id T1, score 1. -/
def cxT1 : Transcript :=
  ⟨("T1").toList, some (("protein_coding").toList), some (("248").toList),
   some (("248").toList), some 1, [], [], [], none⟩

/-- Scored protein-coding candidate at position 248, id T2, score 1. -/
def cxT2 : Transcript :=
  ⟨("T2").toList, some (("protein_coding").toList), some (("248").toList),
   some (("248").toList), some 1, [], [], [], none⟩

/-- Scored protein-coding candidate at position 248, id T3, score 0. -/
def cxT3 : Transcript :=
  ⟨("T3").toList, some (("protein_coding").toList), some (("248").toList),
   some (("248").toList), some 0, [], [], [], none⟩

/-- C1 counterexample: on three scored candidates with polyphen scores
1, 1, 0 and ids T1, T2, T3, the selector returns candidate T1 with score
1, although candidate T3 carries the strictly lowest score, and although
the equally scored candidate T2 has the lexicographically greater id; so
the selector neither returns the lowest quality score nor breaks ties
towards the greatest transcript id. -/
theorem selector_lowest_score_counterexample :
    inferBestTranscript [cxT1, cxT2, cxT3] (("248").toList) (("248").toList) =
      .ok (0, cxT1) ∧
    (2, cxT3) ∈ scoredList [cxT1, cxT2, cxT3] (("248").toList) (("248").toList) ∧
    scoreOf cxT3 < scoreOf cxT1 ∧
    (1, cxT2) ∈ scoredList [cxT1, cxT2, cxT3] (("248").toList) (("248").toList) ∧
    scoreOf cxT2 = scoreOf cxT1 ∧
    cxT2.transcriptId ≠ cxT1.transcriptId ∧
    lexLeB cxT1.transcriptId cxT2.transcriptId = true :=
  ⟨by rfl, by decide, by decide, by decide, by decide, by decide, by rfl⟩

/-- C1 amended: for every candidate list with at least two scored
candidates (protein_coding biotype, matching numeric protein start and
stop, polyphen score present), the selector of variant.py returns a
scored candidate with the highest polyphen score, breaking score ties by
the lexicographically smallest transcript id. -/
theorem selector_highest_score_min_id (ts : List Transcript) (sp ep : List Char)
    (h2 : 2 ≤ (scoredList ts sp ep).length) :
    ∃ b, inferBestTranscript ts sp ep = .ok b ∧ b ∈ scoredList ts sp ep ∧
      (∀ x ∈ scoredList ts sp ep, scoreOf x.2 ≤ scoreOf b.2) ∧
      (∀ x ∈ scoredList ts sp ep, scoreOf x.2 = scoreOf b.2 →
        lexLeB b.2.transcriptId x.2.transcriptId = true) := by
  have hgt : 1 < (scoredList ts sp ep).length := by omega
  have hl1ne : List.insertionSort idDescRel (scoredList ts sp ep) ≠ [] := by
    apply List.ne_nil_of_length_pos
    rw [List.length_insertionSort]
    omega
  obtain ⟨u, b, v, hdec, hlast, hv, hmax⟩ :=
    getLast?_insertionSort_spec scoreAscRel _ hl1ne
  have hb_l1 : b ∈ List.insertionSort idDescRel (scoredList ts sp ep) := by
    rw [hdec]
    exact List.mem_append_right u (List.mem_cons_self b v)
  refine ⟨b, ?_, (List.mem_insertionSort idDescRel).mp hb_l1, ?_, ?_⟩
  · simp only [inferBestTranscript]
    rw [if_pos hgt, hlast]
  · intro x hx
    exact hmax x ((List.mem_insertionSort idDescRel).mpr hx)
  · intro x hx heq
    have hxl1 : x ∈ List.insertionSort idDescRel (scoredList ts sp ep) :=
      (List.mem_insertionSort idDescRel).mpr hx
    rw [hdec] at hxl1
    rcases List.mem_append.mp hxl1 with hu | hbv
    · have hsorted : List.Sorted idDescRel
          (List.insertionSort idDescRel (scoredList ts sp ep)) :=
        List.sorted_insertionSort idDescRel _
      rw [hdec] at hsorted
      have hp := (List.pairwise_append.mp hsorted).2.2
      exact hp x hu b (List.mem_cons_self b v)
    · rcases List.mem_cons.mp hbv with rfl | hvmem
      · exact lexLeB_refl _
      · exact absurd (le_of_eq heq.symm) (hv x hvmem)

/-- C1 witness: the amended selection theorem applied to a concrete list
of two scored candidates. -/
theorem selector_highest_score_min_id_witness :
    2 ≤ (scoredList [cxT1, cxT3] (("248").toList) (("248").toList)).length ∧
    (∃ b, inferBestTranscript [cxT1, cxT3] (("248").toList) (("248").toList) = .ok b ∧
      b ∈ scoredList [cxT1, cxT3] (("248").toList) (("248").toList) ∧
      (∀ x ∈ scoredList [cxT1, cxT3] (("248").toList) (("248").toList),
        scoreOf x.2 ≤ scoreOf b.2) ∧
      (∀ x ∈ scoredList [cxT1, cxT3] (("248").toList) (("248").toList),
        scoreOf x.2 = scoreOf b.2 →
        lexLeB b.2.transcriptId x.2.transcriptId = true)) :=
  ⟨by decide, selector_highest_score_min_id [cxT1, cxT3] (("248").toList) (("248").toList)
    (by decide)⟩

/-- C10: given the same candidate list and the same numeric protein start
and stop positions, the selection logic of hgvs.py and the selection
logic of variant.py return the same result, succeeding with the same
candidate and failing on exactly the same inputs. -/
theorem selection_logic_equivalent (ts : List Transcript) (sp ep : List Char) :
    selectBestVepTranscript ts sp ep = inferBestTranscript ts sp ep := rfl

/-! Helper lemmas for the chromosome pattern and the nucleotide alphabet. -/

theorem chromMatch_of_rest_nonempty (s : List Char)
    (h : (chromRest s).takeWhile chromClassC ≠ []) :
    chromMatch s = some ((chromRest s).takeWhile chromClassC) := by
  have hie : ((chromRest s).takeWhile chromClassC).isEmpty = false := by
    simpa [List.isEmpty_iff] using h
  simp [chromMatch, hie]

theorem chromRest_of_all_class (s : List Char)
    (h : ∀ ch ∈ s, chromClassC ch = true) : chromRest s = s := by
  unfold chromRest
  rw [if_neg]
  intro heq
  have hc : 'C' ∈ s.take 3 := by
    rw [heq]
    exact List.mem_cons_self _ _
  have hcs : 'C' ∈ s := List.take_subset 3 s hc
  have := h 'C' hcs
  exact absurd this (by decide)

theorem chromMatch_of_all_class (s : List Char) (hne : s ≠ [])
    (h : ∀ ch ∈ s, chromClassC ch = true) : chromMatch s = some s := by
  have hrest := chromRest_of_all_class s h
  have htw : s.takeWhile chromClassC = s := List.takeWhile_eq_self_iff.mpr h
  have := chromMatch_of_rest_nonempty s (by rw [hrest, htw]; exact hne)
  rw [hrest, htw] at this
  exact this

theorem isACTG_complementC (c : Char) (h : isACTG c = true) :
    isACTG (complementC c) = true := by
  simp only [isACTG, Bool.or_eq_true, beq_iff_eq] at h
  rcases h with ((rfl | rfl) | rfl) | rfl <;> rfl

theorem nucOk_reverseComplement (s : List Char) (h : nucOk s = true) :
    nucOk (reverseComplement s) = true := by
  rw [nucOk, Bool.and_eq_true] at h
  have h1 : s ≠ [] := by
    intro e
    rw [e] at h
    exact absurd h.1 (by decide)
  have h2 : ∀ c ∈ s, isACTG c = true := List.all_eq_true.mp h.2
  have hne2 : reverseComplement s ≠ [] := by
    simp only [reverseComplement, ne_eq, List.reverse_eq_nil_iff, List.map_eq_nil_iff]
    exact h1
  rw [nucOk, Bool.and_eq_true]
  constructor
  · rw [Bool.not_eq_true', List.isEmpty_eq_false]
    exact hne2
  · rw [List.all_eq_true]
    intro c hc
    simp only [reverseComplement, List.mem_reverse, List.mem_map] at hc
    obtain ⟨a, ha, rfl⟩ := hc
    exact isACTG_complementC a (h2 a ha)

/-- C3: the chromosome pattern of G._validate is compiled without the
ignore-case flag, so the lower-case input chr4 fails construction with a
validation error even though the code's own error message documents the
pattern as case-insensitive; the upper-case CHR4 and the bare 4 both
succeed and normalize the stored chromosome to 4, and normalization is
idempotent on the already normalized 4. -/
theorem chromosome_case_sensitivity :
    Gmake (("chr4").toList) (("1803564").toList) (("1803564").toList) (("C").toList)
        (("T").toList) .substitution = .error .validation ∧
    chromMatch (("chr4").toList) = none ∧
    (Gmake (("CHR4").toList) (("1803564").toList) (("1803564").toList) (("C").toList)
        (("T").toList) .substitution).map GDescr.chromosome = .ok (("4").toList) ∧
    (Gmake (("4").toList) (("1803564").toList) (("1803564").toList) (("C").toList)
        (("T").toList) .substitution).map GDescr.chromosome = .ok (("4").toList) :=
  ⟨rfl, rfl, rfl, rfl⟩

/-- C5: the substitution sub-grammar accepts the stop symbol in the alt
position (group res2 of the pattern allows letters, star and equals), but
the protein descriptor validation alphabet allows only the twenty
one-letter codes and the dash, so parsing TP53:p.R248star and
TP53:p.R248equals fails with a validation error instead of producing a
descriptor whose alt is that symbol. -/
theorem stop_symbol_rejected_by_validation :
    pSubFullmatch (("R248*").toList) = some (['R'], ("248").toList, ['*']) ∧
    parseHgvs (("TP53:p.R248*").toList) = .error .validation ∧
    pSubFullmatch (("R248=").toList) = some (['R'], ("248").toList, ['=']) ∧
    parseHgvs (("TP53:p.R248=").toList) = .error .validation ∧
    pSeqOk (['*']) = false ∧ pSeqOk (['=']) = false :=
  ⟨rfl, rfl, rfl, rfl, rfl, rfl⟩

/-- C7: parsing the insertion input ERBB2:p.P780_Y781insGSP classifies
the edit as an insertion and yields the protein descriptor with start
P780, stop Y781, ref the dash placeholder and alt GSP. -/
theorem insertion_grammar_example :
    parseHgvs (("ERBB2:p.P780_Y781insGSP").toList) =
      .ok ⟨⟨("ERBB2").toList, ("P780").toList, ("Y781").toList, ['-'], ("GSP").toList,
        .insertion, false⟩, .insertion, ("P780_Y781insGSP").toList⟩ := rfl

/-- C8: the coordinate transformer fails with an ambiguous-mapping error,
and builds no genomic descriptor, whenever the mapping response does not
contain exactly one mapping. -/
theorem cds_mapping_requires_unique (c : CDescr) (mappings : List Mapping)
    (h : mappings.length ≠ 1) :
    mapCdsToGenome mappings = .error .ambiguousMapping ∧
    cToG c mappings = .error .ambiguousMapping := by
  cases mappings with
  | nil => exact ⟨rfl, rfl⟩
  | cons m rest =>
    cases rest with
    | nil => simp at h
    | cons m2 rest2 => exact ⟨rfl, rfl⟩

/-- Concrete coding descriptor used by witnesses of the coordinate
transformer claims. -/
def wCD : CDescr :=
  ⟨("ENST1").toList, ("742").toList, ("742").toList, ['1'], ['C'], ['T'], .substitution⟩

/-- C8 witness: the ambiguous-mapping theorem applied to the empty
response and to a two-element response. -/
theorem cds_mapping_requires_unique_witness :
    (List.length ([] : List Mapping) ≠ 1 ∧
      mapCdsToGenome [] = .error .ambiguousMapping ∧
      cToG wCD [] = .error .ambiguousMapping) ∧
    (List.length [Mapping.mk (("4").toList) (("1").toList) (("2").toList),
        Mapping.mk (("5").toList) (("3").toList) (("4").toList)] ≠ 1 ∧
      cToG wCD [Mapping.mk (("4").toList) (("1").toList) (("2").toList),
        Mapping.mk (("5").toList) (("3").toList) (("4").toList)] =
        .error .ambiguousMapping) :=
  ⟨⟨by decide, cds_mapping_requires_unique wCD [] (by decide)⟩,
   ⟨by decide, (cds_mapping_requires_unique wCD
      [Mapping.mk (("4").toList) (("1").toList) (("2").toList),
       Mapping.mk (("5").toList) (("3").toList) (("4").toList)] (by decide)).2⟩⟩

/-- C9: every alphanumeric chromosome token whose remainder after the
optional literal upper-case CHR starts with a chromosome-class character
is accepted, and only the leading run of class characters is stored as
the chromosome; trailing characters are silently discarded. -/
theorem chromosome_keeps_leading_segment (s start stop ref alt : List Char)
    (et : EditType) (hal : isalnum s = true)
    (hne : (chromRest s).takeWhile chromClassC ≠ [])
    (hstart : basePosOk start = true) (hstop : basePosOk stop = true)
    (href : nucOk ref = true) (halt : nucOk alt = true) :
    Gmake s start stop ref alt et =
      .ok ⟨(chromRest s).takeWhile chromClassC, start, stop, ref, alt, et⟩ := by
  have hmatch := chromMatch_of_rest_nonempty s hne
  simp [Gmake, hal, hstart, hstop, href, halt, hmatch]

/-- C9 witness: the chromosome token 4B12 is accepted and stored as the
bare chromosome 4. -/
theorem chromosome_keeps_leading_segment_witness :
    isalnum (("4B12").toList) = true ∧
    (chromRest (("4B12").toList)).takeWhile chromClassC = ("4").toList ∧
    Gmake (("4B12").toList) (("1").toList) (("2").toList) (("A").toList) (("T").toList)
        .substitution =
      .ok ⟨(chromRest (("4B12").toList)).takeWhile chromClassC, ("1").toList,
        ("2").toList, ("A").toList, ("T").toList, .substitution⟩ :=
  ⟨by decide, by decide,
   chromosome_keeps_leading_segment (("4B12").toList) (("1").toList) (("2").toList)
     (("A").toList) (("T").toList) .substitution (by decide) (by decide) (by decide)
     (by decide) (by decide) (by decide)⟩

/-- C4: with a single mapping in the response, the coordinate transformer
reverse complements the coding ref and alt exactly when the strand of the
selected transcript is minus one; on the plus strand the genomic ref and
alt equal the coding ones unchanged, and in both cases chromosome, start
and stop are taken directly from the mapping response fields. -/
theorem strand_reverse_complement_iff (c : CDescr) (t : Mapping)
    (href : nucOk c.ref = true) (halt : nucOk c.alt = true)
    (hchr_ne : t.seqRegionName ≠ [])
    (hchr_cls : ∀ ch ∈ t.seqRegionName, chromClassC ch = true)
    (hstart : basePosOk t.start = true) (hstop : basePosOk t.stop = true) :
    ∃ g, cToG c [t] = .ok g ∧
      g.chromosome = t.seqRegionName ∧ g.start = t.start ∧ g.stop = t.stop ∧
      (c.strand = ['-', '1'] →
        g.ref = reverseComplement c.ref ∧ g.alt = reverseComplement c.alt) ∧
      (c.strand ≠ ['-', '1'] → g.ref = c.ref ∧ g.alt = c.alt) := by
  have hial : isalnum t.seqRegionName = true := by
    rw [isalnum, Bool.and_eq_true]
    constructor
    · rw [Bool.not_eq_true', List.isEmpty_eq_false]
      exact hchr_ne
    · rw [List.all_eq_true]
      intro ch hch
      have hcl := hchr_cls ch hch
      simp only [chromClassC, Bool.or_eq_true, beq_iff_eq] at hcl
      rcases hcl with (((rfl | rfl) | rfl) | rfl) | hd
      · decide
      · decide
      · decide
      · decide
      · simp only [isAlnumC, Bool.or_eq_true]
        exact Or.inr hd
  have hmatch := chromMatch_of_all_class t.seqRegionName hchr_ne hchr_cls
  by_cases hs : c.strand = ['-', '1']
  · refine ⟨⟨t.seqRegionName, t.start, t.stop, reverseComplement c.ref,
      reverseComplement c.alt, c.editType⟩, ?_, rfl, rfl, rfl,
      fun _ => ⟨rfl, rfl⟩, fun hcon => absurd hs hcon⟩
    have hbeq : (c.strand == ['-', '1']) = true := by
      rw [beq_iff_eq]
      exact hs
    simp [cToG, mapCdsToGenome, hbeq, Gmake, hial, nucOk_reverseComplement _ href,
      nucOk_reverseComplement _ halt, hstart, hstop, hmatch]
  · refine ⟨⟨t.seqRegionName, t.start, t.stop, c.ref, c.alt, c.editType⟩, ?_, rfl,
      rfl, rfl, fun hcon => absurd hcon hs, fun _ => ⟨rfl, rfl⟩⟩
    have hbeq : (c.strand == ['-', '1']) = false := by
      rw [beq_eq_false_iff_ne]
      exact hs
    simp [cToG, mapCdsToGenome, hbeq, Gmake, hial, href, halt, hstart, hstop, hmatch]

/-- Concrete mapping response record used by the coordinate transformer
witness. -/
def wMap : Mapping := ⟨("4").toList, ("1803564").toList, ("1803564").toList⟩

/-- C4 witness: the strand theorem applied to a plus-strand coding
descriptor and a single concrete mapping. -/
theorem strand_reverse_complement_iff_witness :
    nucOk wCD.ref = true ∧ nucOk wCD.alt = true ∧ wMap.seqRegionName ≠ [] ∧
    (∀ ch ∈ wMap.seqRegionName, chromClassC ch = true) ∧
    basePosOk wMap.start = true ∧ basePosOk wMap.stop = true ∧
    (∃ g, cToG wCD [wMap] = .ok g ∧
      g.chromosome = wMap.seqRegionName ∧ g.start = wMap.start ∧ g.stop = wMap.stop ∧
      (wCD.strand = ['-', '1'] →
        g.ref = reverseComplement wCD.ref ∧ g.alt = reverseComplement wCD.alt) ∧
      (wCD.strand ≠ ['-', '1'] → g.ref = wCD.ref ∧ g.alt = wCD.alt)) :=
  ⟨by decide, by decide, by decide, by decide, by decide, by decide,
   strand_reverse_complement_iff wCD wMap (by decide) (by decide) (by decide)
     (by decide) (by decide) (by decide)⟩

/-- Oracle with empty responses used by the allele-bracket witness; the
pipeline must fail before reading any of it. -/
def wOracle : Oracle := ⟨[], [], []⟩

/-- C6: an input string whose edit body contains the allele bracket makes
variant construction fail with a malformed-input error while the network
request counter is still zero. -/
theorem bracket_fails_before_network (o : Oracle) (s idc edits : List Char)
    (pfxc : Char) (hm : primaryMatch s = some (idc, pfxc, edits))
    (hb : '[' ∈ edits) :
    variantResolve o s = (.error .malformedInput, 0) := by
  simp [variantResolve, parseHgvs, hm, hb]

/-- C6 witness: the allele-bracket theorem applied to a concrete
bracketed input and the empty oracle. -/
theorem bracket_fails_before_network_witness :
    primaryMatch (("ABC:p.[R248C]").toList) =
      some (("ABC").toList, 'p', ("[R248C]").toList) ∧
    '[' ∈ ("[R248C]").toList ∧
    variantResolve wOracle (("ABC:p.[R248C]").toList) = (.error .malformedInput, 0) :=
  ⟨by rfl, by decide,
   bracket_fails_before_network wOracle (("ABC:p.[R248C]").toList) (("ABC").toList)
     (("[R248C]").toList) 'p' (by rfl) (by decide)⟩

/-! Character-class facts and a uniqueness principle for find?, used to
evaluate the primary pattern on composite inputs. -/

theorem isAlphaC_not_digit (c : Char) (h : isAlphaC c = true) : isDigitC c = false := by
  simp only [isAlphaC, isDigitC, decide_eq_true_eq, decide_eq_false_iff_not] at h ⊢
  omega

theorem isDigitC_not_alpha (c : Char) (h : isDigitC c = true) : isAlphaC c = false := by
  simp only [isAlphaC, isDigitC, decide_eq_true_eq, decide_eq_false_iff_not] at h ⊢
  omega

theorem isAlnumC_facts (c : Char) (h : isAlnumC c = true) :
    isSpaceC c = false ∧ c ≠ ':' ∧ c ≠ '\n' ∧ c ≠ '[' := by
  simp only [isAlnumC, isAlphaC, isDigitC, isSpaceC, Bool.or_eq_true, decide_eq_true_eq,
    decide_eq_false_iff_not] at h ⊢
  refine ⟨by omega, ?_, ?_, ?_⟩ <;>
    · intro e
      rw [e] at h
      revert h
      decide

theorem mem_aa1_isAlphaC (c : Char) (h : c ∈ aa1L) : isAlphaC c = true := by
  fin_cases h <;> decide

theorem mem_aa1_isAlnumC (c : Char) (h : c ∈ aa1L) : isAlnumC c = true := by
  fin_cases h <;> decide

theorem mem_aa1_isSubAltC (c : Char) (h : c ∈ aa1L) : isSubAltC c = true := by
  fin_cases h <;> decide

theorem find?_eq_some_of_unique {p : Nat → Bool} :
    ∀ (l : List Nat) (i : Nat), i ∈ l → p i = true →
      (∀ j ∈ l, p j = true → j = i) → l.find? p = some i := by
  intro l
  induction l with
  | nil => intro i hi; cases hi
  | cons x xs ih =>
    intro i hi hpi huniq
    by_cases hx : p x = true
    · have hxi : x = i := huniq x (List.mem_cons_self _ _) hx
      rw [List.find?_cons_of_pos _ hx, hxi]
    · have hix : i ∈ xs := by
        rcases List.mem_cons.mp hi with rfl | h
        · exact absurd hpi hx
        · exact h
      rw [List.find?_cons_of_neg _ hx]
      exact ih i hix hpi (fun j hj => huniq j (List.mem_cons_of_mem _ hj))

theorem primaryMatch_append (idc edits : List Char) (pc : Char)
    (hid : idc ≠ [])
    (hidc : ∀ ch ∈ idc, isSpaceC ch = false ∧ ch ≠ ':')
    (hpc : pc = 'p' ∨ pc = 'c' ∨ pc = 'g')
    (hed : ∀ ch ∈ edits, ch ≠ ':' ∧ ch ≠ '\n') :
    primaryMatch (idc ++ ':' :: pc :: '.' :: edits) = some (idc, pc, edits) := by
  have hpcne : pc ≠ ':' := by
    rcases hpc with rfl | rfl | rfl <;> decide
  have htake : (idc ++ ':' :: pc :: '.' :: edits).take idc.length = idc :=
    List.take_left idc _
  have hget0 : (idc ++ ':' :: pc :: '.' :: edits)[idc.length]? = some ':' := by
    rw [List.getElem?_append_right (Nat.le_refl _), Nat.sub_self, List.getElem?_cons_zero]
  have hget1 : (idc ++ ':' :: pc :: '.' :: edits)[idc.length + 1]? = some pc := by
    rw [List.getElem?_append_right (Nat.le_add_right _ _), Nat.add_sub_cancel_left,
      List.getElem?_cons_succ, List.getElem?_cons_zero]
  have hget2 : (idc ++ ':' :: pc :: '.' :: edits)[idc.length + 2]? = some '.' := by
    rw [List.getElem?_append_right (Nat.le_add_right _ _), Nat.add_sub_cancel_left,
      List.getElem?_cons_succ, List.getElem?_cons_succ, List.getElem?_cons_zero]
  have hsplit : primarySplitOk (idc ++ ':' :: pc :: '.' :: edits) idc.length = true := by
    rw [primarySplitOk, htake]
    have h1 : idc.isEmpty = false := List.isEmpty_eq_false.mpr hid
    have h2 : idc.all (fun c => !isSpaceC c) = true := by
      rw [List.all_eq_true]
      intro c hc
      rw [(hidc c hc).1]
      rfl
    rw [h1, h2, hget0, hget1, hget2]
    rcases hpc with rfl | rfl | rfl <;> rfl
  have huniq : ∀ j ∈ (List.range (idc ++ ':' :: pc :: '.' :: edits).length).reverse,
      primarySplitOk (idc ++ ':' :: pc :: '.' :: edits) j = true → j = idc.length := by
    intro j _ hj
    rw [primarySplitOk] at hj
    simp only [Bool.and_eq_true] at hj
    have hcolon : (idc ++ ':' :: pc :: '.' :: edits)[j]? = some ':' :=
      beq_iff_eq.mp hj.1.1.2
    by_contra hne
    rcases Nat.lt_or_ge j idc.length with hlt | hge
    · rw [List.getElem?_append_left hlt] at hcolon
      have hmem : ':' ∈ idc := List.getElem?_mem hcolon
      exact (hidc ':' hmem).2 rfl
    · rw [List.getElem?_append_right hge] at hcolon
      have hk : ∃ k, j - idc.length = k := ⟨j - idc.length, rfl⟩
      obtain ⟨k, hkeq⟩ := hk
      rw [hkeq] at hcolon
      match k, hkeq, hcolon with
      | 0, hkeq, hcolon =>
        exact hne (by omega)
      | 1, hkeq, hcolon =>
        rw [List.getElem?_cons_succ, List.getElem?_cons_zero] at hcolon
        exact hpcne (Option.some.inj hcolon)
      | 2, hkeq, hcolon =>
        rw [List.getElem?_cons_succ, List.getElem?_cons_succ,
          List.getElem?_cons_zero] at hcolon
        exact absurd (Option.some.inj hcolon) (by decide)
      | (k3 + 3), hkeq, hcolon =>
        rw [List.getElem?_cons_succ, List.getElem?_cons_succ,
          List.getElem?_cons_succ] at hcolon
        have hmem : ':' ∈ edits := List.getElem?_mem hcolon
        exact (hed ':' hmem).1 rfl
  have hlenmem : idc.length ∈ (List.range (idc ++ ':' :: pc :: '.' :: edits).length).reverse := by
    rw [List.mem_reverse, List.mem_range, List.length_append]
    simp
  have hfind : (List.range (idc ++ ':' :: pc :: '.' :: edits).length).reverse.find?
      (fun i => primarySplitOk (idc ++ ':' :: pc :: '.' :: edits) i) = some idc.length :=
    find?_eq_some_of_unique _ idc.length hlenmem hsplit huniq
  have hdrop : (idc ++ ':' :: pc :: '.' :: edits).drop (idc.length + 3) = edits := by
    have hassoc : idc ++ ':' :: pc :: '.' :: edits = (idc ++ [':', pc, '.']) ++ edits := by
      simp
    have hlen : (idc ++ [':', pc, '.']).length = idc.length + 3 := by
      simp
    rw [hassoc, ← hlen, List.drop_left]
  have htwe : edits.takeWhile (fun c => c != '\n') = edits := by
    rw [List.takeWhile_eq_self_iff]
    intro ch hch
    exact bne_iff_ne.mpr (hed ch hch).2
  simp only [primaryMatch, hfind, hget1, htake, hdrop, htwe]

theorem pSubFullmatch_single (r a : Char) (pos : List Char)
    (hr : isAlphaC r = true) (ha : isAlphaC a = true) (hsub : isSubAltC a = true)
    (hpos : pos ≠ []) (hposd : ∀ ch ∈ pos, isDigitC ch = true) :
    pSubFullmatch (r :: (pos ++ [a])) = some ([r], pos, [a]) := by
  obtain ⟨d, ds, rfl⟩ : ∃ d ds, pos = d :: ds := by
    cases pos with
    | nil => exact absurd rfl hpos
    | cons d ds => exact ⟨d, ds, rfl⟩
  have hd : isDigitC d = true := hposd d (List.mem_cons_self _ _)
  have hda : isAlphaC d = false := isDigitC_not_alpha d hd
  have had : isDigitC a = false := isAlphaC_not_digit a ha
  have htw1 : (r :: ((d :: ds) ++ [a])).takeWhile isAlphaC = [r] := by
    rw [List.takeWhile_cons_of_pos hr, List.cons_append,
      List.takeWhile_cons_of_neg (by simp [hda])]
  have hdw1 : (r :: ((d :: ds) ++ [a])).dropWhile isAlphaC = (d :: ds) ++ [a] := by
    rw [List.dropWhile_cons_of_pos hr, List.cons_append,
      List.dropWhile_cons_of_neg (by simp [hda])]
  have htseq : (d :: ds).takeWhile isDigitC = d :: ds :=
    List.takeWhile_eq_self_iff.mpr hposd
  have htwd : ((d :: ds) ++ [a]).takeWhile isDigitC = d :: ds := by
    rw [List.takeWhile_append, if_pos (by rw [htseq]),
      List.takeWhile_cons_of_neg (by simp [had]), List.append_nil]
  have hdwd : ((d :: ds) ++ [a]).dropWhile isDigitC = [a] := by
    rw [List.dropWhile_append, List.dropWhile_eq_nil_iff.mpr hposd]
    simp [had]
  simp only [pSubFullmatch, htw1, hdw1, htwd, hdwd]
  simp [hsub]

theorem Pmake_single (idc pos : List Char) (r a : Char)
    (hidal : isalnum idc = true) (hr : r ∈ aa1L) (ha : a ∈ aa1L)
    (hpos : pos ≠ []) (hposd : ∀ ch ∈ pos, isDigitC ch = true) :
    Pmake idc ([r] ++ pos) ([r] ++ pos) [r] [a] .substitution =
      .ok ⟨idc, [r] ++ pos, [r] ++ pos, [r], [a], .substitution, false⟩ := by
  obtain ⟨d, ds, rfl⟩ : ∃ d ds, pos = d :: ds := by
    cases pos with
    | nil => exact absurd rfl hpos
    | cons d ds => exact ⟨d, ds, rfl⟩
  have hra := mem_aa1_isAlphaC r hr
  have hda : isAlphaC d = false :=
    isDigitC_not_alpha d (hposd d (List.mem_cons_self _ _))
  have hconv : (matches3 [r] && matches3 [a]) = false := rfl
  have hseqr : pSeqOk [r] = true := by simp [pSeqOk, hr]
  have hseqa : pSeqOk [a] = true := by simp [pSeqOk, ha]
  have htw : (r :: (d :: ds)).takeWhile isAlphaC = [r] := by
    rw [List.takeWhile_cons_of_pos hra, List.takeWhile_cons_of_neg (by simp [hda])]
  have hdw : (r :: (d :: ds)).dropWhile isAlphaC = d :: ds := by
    rw [List.dropWhile_cons_of_pos hra, List.dropWhile_cons_of_neg (by simp [hda])]
  have hstart : pStartOk (r :: (d :: ds)) = true := by
    simp only [pStartOk, htw, hdw]
    simp [List.all_eq_true.mpr hposd]
  have hstop : pStopOk (r :: (d :: ds)) = true := by
    simp only [pStopOk, htw, hdw]
    simp [List.all_eq_true.mpr hposd]
  simp [Pmake, hconv, hidal, hseqr, hseqa, hstart, hstop]

/-- C2 counterexample: parsing the three-letter form TP53:p.Arg248Cys
succeeds and normalizes ref and alt to the one-letter codes R and C, but
re-formatting interpolates the stored start token, which still carries the
three-letter residue, so the output is TP53:p.Arg248C and not the
canonical single-letter form TP53:p.R248C. -/
theorem three_letter_roundtrip_counterexample :
    (parseHgvs (("TP53:p.Arg248Cys").toList)).map (fun pr => pr.p.hgvs) =
      .ok (("TP53:p.Arg248C").toList) ∧
    (parseHgvs (("TP53:p.Arg248Cys").toList)).map (fun pr => pr.p.ref) = .ok (['R']) ∧
    (parseHgvs (("TP53:p.Arg248Cys").toList)).map (fun pr => pr.p.alt) = .ok (['C']) ∧
    ("TP53:p.Arg248C").toList ≠ ("TP53:p.R248C").toList :=
  ⟨rfl, rfl, rfl, by decide⟩

/-- C2 amended: for every valid protein substitution string built from a
non-empty alphanumeric id, a single-letter amino-acid ref, a non-empty
numeric position and a single-letter amino-acid alt, parsing followed by
re-formatting the protein descriptor reproduces the input string exactly;
three-letter ref and alt tokens are normalized in the stored ref and alt
fields but the formatted string keeps the three-letter residue inside the
start token. -/
theorem single_letter_roundtrip (idc pos : List Char) (r a : Char)
    (hid : idc ≠ []) (hidal : ∀ ch ∈ idc, isAlnumC ch = true)
    (hr : r ∈ aa1L) (ha : a ∈ aa1L)
    (hpos : pos ≠ []) (hposd : ∀ ch ∈ pos, isDigitC ch = true) :
    (parseHgvs (idc ++ ':' :: 'p' :: '.' :: (r :: (pos ++ [a])))).map
        (fun pr => pr.p.hgvs) =
      .ok (idc ++ ':' :: 'p' :: '.' :: (r :: (pos ++ [a]))) := by
  have hedch : ∀ ch ∈ (r :: (pos ++ [a])), isAlnumC ch = true := by
    intro ch hch
    rcases List.mem_cons.mp hch with rfl | hch2
    · exact mem_aa1_isAlnumC ch hr
    · rcases List.mem_append.mp hch2 with hp | hA
      · rw [isAlnumC, Bool.or_eq_true]
        exact Or.inr (hposd ch hp)
      · have := List.mem_singleton.mp hA
        subst this
        exact mem_aa1_isAlnumC ch ha
  have hpm := primaryMatch_append idc (r :: (pos ++ [a])) 'p' hid
    (fun ch hch =>
      ⟨(isAlnumC_facts ch (hidal ch hch)).1, (isAlnumC_facts ch (hidal ch hch)).2.1⟩)
    (Or.inl rfl)
    (fun ch hch =>
      ⟨(isAlnumC_facts ch (hedch ch hch)).2.1,
       (isAlnumC_facts ch (hedch ch hch)).2.2.1⟩)
  have hnobr : ¬ ('[' ∈ (r :: (pos ++ [a]))) := by
    intro hb
    exact (isAlnumC_facts '[' (hedch '[' hb)).2.2.2 rfl
  have hsub := pSubFullmatch_single r a pos (mem_aa1_isAlphaC r hr)
    (mem_aa1_isAlphaC a ha) (mem_aa1_isSubAltC a ha) hpos hposd
  have hisal : isalnum idc = true := by
    rw [isalnum, Bool.and_eq_true]
    exact ⟨by rw [Bool.not_eq_true', List.isEmpty_eq_false]; exact hid,
      List.all_eq_true.mpr hidal⟩
  have hmk := Pmake_single idc pos r a hisal hr ha hpos hposd
  simp only [parseHgvs, hpm, if_neg hnobr, beq_self_eq_true, if_true, hsub, hmk,
    Except.map]
  simp [PDescr.hgvs, List.append_assoc]

/-- C2 witness: the single-letter round trip evaluated on the concrete
input FGFR3:p.R248C. -/
theorem single_letter_roundtrip_witness :
    (("FGFR3").toList ≠ [] ∧ (("248").toList ≠ [])) ∧
    (parseHgvs ((("FGFR3").toList) ++ ':' :: 'p' :: '.' ::
        ('R' :: ((("248").toList) ++ ['C'])))).map (fun pr => pr.p.hgvs) =
      .ok ((("FGFR3").toList) ++ ':' :: 'p' :: '.' ::
        ('R' :: ((("248").toList) ++ ['C']))) :=
  ⟨⟨by decide, by decide⟩,
   single_letter_roundtrip (("FGFR3").toList) (("248").toList) 'R' 'C' (by decide)
     (by decide) (by decide) (by decide) (by decide) (by decide)⟩

end Hgvstools
